import Mathlib

/-!
Verification development for the tick-data acquisition pipeline
(`database/data/raw`): the fetch client (`fetch_tick_data.py`), the
partitioned dedup store (`store_tick_data.py`), the integrity scanner
(`scanner.py`) and the gap-repair pipeline (`parallel_patch.py`).

The Python code is shallowly embedded: dataframes become lists of tick
records, HDF5 stores become association lists from partition keys to
record lists, and the stateful fetch loop becomes a recursion over the
remaining retry budget.  Machine integers are modelled by `Nat`/`Int`
(no overflow is relevant at these magnitudes) and float configuration
constants by `Rat`.
-/

namespace TickPipeline

/-! ### Calendar arithmetic

`store_tick_data.py` derives `(year, month, day)` from an epoch-millisecond
timestamp via `pd.to_datetime(..., unit='ms')`; `scanner.py` uses
`calendar.monthrange` and `datetime.weekday()`.  We embed the standard
proleptic-Gregorian civil-calendar conversions (Hinnant's algorithms),
which is exactly what those library calls compute on in-range dates. -/

/-- Number of days in a civil month, as `calendar.monthrange(year, month)[1]`
for months 1..12 (Gregorian leap rule). -/
def daysInMonth (y m : ℕ) : ℕ :=
  if m = 2 then
    if y % 4 = 0 ∧ (y % 100 ≠ 0 ∨ y % 400 = 0) then 29 else 28
  else if m = 4 ∨ m = 6 ∨ m = 9 ∨ m = 11 then 30
  else 31

/-- Days from 0000-03-01 to the civil date `(y, m, d)` (valid for `y ≥ 1`,
with `m = 1,2` counted in the shifted year).  Hinnant's days-from-civil. -/
def daysFromCivil0 (y m d : ℕ) : ℕ :=
  let y' := if m ≤ 2 then y - 1 else y
  let era := y' / 400
  let yoe := y' % 400
  let mp := (m + 9) % 12
  let doy := (153 * mp + 2) / 5 + (d - 1)
  let doe := yoe * 365 + yoe / 4 - yoe / 100 + doy
  era * 146097 + doe

/-- Python `datetime(y, m, d).weekday()`: Monday = 0, ..., Saturday = 5,
Sunday = 6.  Fixed by `daysFromCivil0 1970 1 1 = 719468` falling on a
Thursday (weekday 3). -/
def weekdayOf (y m d : ℕ) : ℕ :=
  (daysFromCivil0 y m d + 2) % 7

/-- Civil date from a count of days since the Unix epoch 1970-01-01
(Hinnant's civil-from-days, shifted to the 0000-03-01 era start).
This is what `pd.to_datetime(ms, unit='ms').dt.{year,month,day}` yields. -/
def civilFromDays (z : ℕ) : ℕ × ℕ × ℕ :=
  let z' := z + 719468
  let era := z' / 146097
  let doe := z' % 146097
  let yoe := (doe - doe / 1460 + doe / 36524 - doe / 146096) / 365
  let y := yoe + era * 400
  let doy := doe - (365 * yoe + yoe / 4 - yoe / 100)
  let mp := (5 * doy + 2) / 153
  let d := doy - (153 * mp + 2) / 5 + 1
  let m := if mp < 10 then mp + 3 else mp - 9
  (if m ≤ 2 then y + 1 else y, m, d)

/-! ### Tick records and partition keys -/

/-- One tick record: the atomic unit moved through the pipeline.
`timestamp` is integer milliseconds since the Unix epoch (UTC); the float
payload fields are carried through untouched, modelled as rationals. -/
structure TickRec where
  timestamp : ℕ
  bid : ℚ
  ask : ℚ
  bidVolume : ℚ
  askVolume : ℚ
deriving DecidableEq, Repr

/-- Partition key `(year, month, day)`: the calendar day (UTC) a record
belongs to, derived from its timestamp exactly as
`pd.to_datetime(df.timestamp, unit='ms').dt.{year,month,day}` does. -/
def keyOf (r : TickRec) : ℕ × ℕ × ℕ :=
  civilFromDays (r.timestamp / 86400000)

/-- One instrument's HDF5 store: an association list from partition keys
`(y, m, d)` (the sub-table path `/{asset}/y{y}/m{m:02}/d{d:02}`) to that
day's record list, in file order.  HDF5 keys are unique. -/
abbrev Store := List ((ℕ × ℕ × ℕ) × List TickRec)

/-- Lookup of a partition in a store, as `store[key]` / `key in store`. -/
def lookupStore (s : Store) (k : ℕ × ℕ × ℕ) : Option (List TickRec) :=
  match s with
  | [] => none
  | (k', v) :: rest => if k' = k then some v else lookupStore rest k

/-- The source's `store.put(key, df)`: full replacement of the single
sub-table `key` (in place when present, appended when new). -/
def putStore (s : Store) (k : ℕ × ℕ × ℕ) (v : List TickRec) : Store :=
  match s with
  | [] => [(k, v)]
  | (k', v') :: rest => if k' = k then (k, v) :: rest else (k', v') :: putStore rest k v

/-! ### `chunkify` (parallel_patch.py lines 59-71)

The Python loop runs `i = 0..n-1`, giving `q+1` elements to each `i < r`;
the recursion below counts the `n` chunks down, handing the extra element
out while `r` extras remain — the same assignment in the same order. -/

/-- Loop body of `chunkify`: produce `n` chunks of `lst`, each of `q` or
`q+1` elements, with `r` leading chunks carrying the extra element. -/
def chunkAux : List α → ℕ → ℕ → ℕ → List (List α)
  | _, _, 0, _ => []
  | lst, q, Nat.succ n, r =>
    let size := q + (if 0 < r then 1 else 0)
    lst.take size :: chunkAux (lst.drop size) q n (r - 1)

/-- Function `chunkify(lst, n)` from `parallel_patch.py`: split `lst` into `n`
chunks as evenly as possible (`n <= 0` degenerates to one chunk). -/
def chunkify (lst : List α) (n : ℕ) : List (List α) :=
  if n = 0 then [lst]
  else chunkAux lst (lst.length / n) n (lst.length % n)

/-! ### Retry backoff policy (fetch_tick_data.py lines 100-102)

The configuration defaults of `fetch_tick_data.py`, as rationals. -/

def MAX_CONCURRENT_FETCHES : ℕ := 6

def FETCH_MAX_RETRIES : ℕ := 3

def FETCH_BACKOFF_BASE : ℚ := 1 / 2

def FETCH_BACKOFF_MAX : ℚ := 10

def FETCH_REQUEST_DELAY : ℚ := 1 / 5

/-- Line 100: `backoff = min(FETCH_BACKOFF_MAX, FETCH_BACKOFF_BASE * (2 ** (attempt - 1)))`. -/
def backoffOf (attempt : ℕ) : ℚ :=
  min FETCH_BACKOFF_MAX (FETCH_BACKOFF_BASE * 2 ^ (attempt - 1))

/-- Line 102: `sleep_time = backoff * (0.5 + random.random() / 2.0)`, with
`u` the draw of `random.random()` (uniform on `[0, 1)`). -/
def sleepTimeOf (attempt : ℕ) (u : ℚ) : ℚ :=
  backoffOf attempt * (1 / 2 + u / 2)

/-! ### The fetch client loop (fetch_tick_data.py lines 51-107)

One worker invocation (`subprocess.run` of the Node fetcher) ends in one
of the outcomes below; the per-attempt outcome is supplied by an oracle
`ℕ → WorkerOutcome` indexed by the attempt number.  JSON decoding of the
worker's stdout (`json.loads`) is external library code, abstracted as a
`parse` function returning `none` on a decode error; the source's
`result.stdout or '[]'` empty-string fallback is kept explicit. -/

/-- Outcome of one invocation of the external fetcher process. -/
inductive WorkerOutcome where
  | notFound
  | timeout
  | completed (returncode : ℤ) (stdout : String)
deriving DecidableEq, Repr

/-- An outcome the source classifies as transient (will backoff and
retry): a timeout, a non-zero exit, or undecodable stdout. -/
def transientOutcome (parse : String → Option (List TickRec)) : WorkerOutcome → Prop
  | .notFound => False
  | .timeout => True
  | .completed rc out => rc ≠ 0 ∨ parse (if out = "" then "[]" else out) = none

/-- The retry loop of `fetch_tick_data_for_day` (lines 58-107): `rem` is
the remaining attempt budget `FETCH_MAX_RETRIES - attempt`, `attempts`
the attempts performed so far.  Returns the payload together with the
number of attempts made.  A `notFound` outcome returns `[]` immediately
(line 70); a decoded payload returns it (line 86); every transient
outcome falls through to the backoff-and-retry path (lines 98-104). -/
def fetchAux (parse : String → Option (List TickRec)) (oracle : ℕ → WorkerOutcome) :
    ℕ → ℕ → List TickRec × ℕ
  | 0, attempts => ([], attempts)
  | Nat.succ rem, attempts =>
    let attempt := attempts + 1
    match oracle attempt with
    | .notFound => ([], attempt)
    | .timeout => fetchAux parse oracle rem attempt
    | .completed rc out =>
      if rc ≠ 0 then fetchAux parse oracle rem attempt
      else
        match parse (if out = "" then "[]" else out) with
        | some payload => (payload, attempt)
        | none => fetchAux parse oracle rem attempt

/-- Function `fetch_tick_data_for_day` with a retry cap of `maxRetries`
(`FETCH_MAX_RETRIES`, default 3). -/
def fetch_tick_data_for_day (parse : String → Option (List TickRec))
    (oracle : ℕ → WorkerOutcome) (maxRetries : ℕ) : List TickRec × ℕ :=
  fetchAux parse oracle maxRetries 0

/-- A worker that always times out. -/
def alwaysTimeout : ℕ → WorkerOutcome := fun _ => .timeout

/-- A worker that always exits 0 with empty stdout. -/
def emptySuccessOracle : ℕ → WorkerOutcome := fun _ => .completed 0 ""

/-- A JSON decoder fixed only on the input at issue: `json.loads` maps
the string `"[]"` to the empty array and is otherwise unspecified. -/
def parseEmptyArr : String → Option (List TickRec) :=
  fun s => if s = "[]" then some [] else none

/-! ### The partitioned dedup store (store_tick_data.py lines 11-48) -/

/-- Ordering of tick records by timestamp, the sort key of
`sort_values('timestamp')`. -/
def tsLe (a b : TickRec) : Prop := a.timestamp ≤ b.timestamp

instance : DecidableRel tsLe := fun a b => Nat.decLe a.timestamp b.timestamp

instance : IsTotal TickRec tsLe := ⟨fun a b => Nat.le_total a.timestamp b.timestamp⟩

instance : IsTrans TickRec tsLe := ⟨fun _ _ _ => Nat.le_trans⟩

/-- Pandas `drop_duplicates(subset=['timestamp'])`: keep the first record
carrying each timestamp, drop later ones. -/
def dedupByTs : List TickRec → List TickRec
  | [] => []
  | r :: rs => r :: dedupByTs (rs.filter fun x => x.timestamp != r.timestamp)
termination_by l => l.length
decreasing_by
  simp only [List.length_cons]
  exact Nat.lt_succ_of_le (rs.length_filter_le _)

/-- Pandas `sort_values('timestamp')`: after deduplication the timestamps
are unique, so any sort by timestamp yields this canonical order. -/
def sortByTs (l : List TickRec) : List TickRec := List.insertionSort tsLe l

/-- Lines 44-46: `combined.drop_duplicates(subset=['timestamp']).sort_values('timestamp')`. -/
def dedupSortTs (l : List TickRec) : List TickRec := sortByTs (dedupByTs l)

/-- Lexicographic order on `(year, month, day)` partition keys, the order
pandas `groupby(['year','month','day'])` iterates group keys in. -/
def keyLe (a b : ℕ × ℕ × ℕ) : Prop :=
  a.1 < b.1 ∨ (a.1 = b.1 ∧ (a.2.1 < b.2.1 ∨ (a.2.1 = b.2.1 ∧ a.2.2 ≤ b.2.2)))

instance : DecidableRel keyLe := fun a b =>
  inferInstanceAs (Decidable (a.1 < b.1 ∨
    (a.1 = b.1 ∧ (a.2.1 < b.2.1 ∨ (a.2.1 = b.2.1 ∧ a.2.2 ≤ b.2.2)))))

instance : IsTotal (ℕ × ℕ × ℕ) keyLe := ⟨by intro a b; unfold keyLe; omega⟩

instance : IsTrans (ℕ × ℕ × ℕ) keyLe := ⟨by intro a b c; unfold keyLe; omega⟩

/-- The distinct partition keys of a dataframe, in the sorted order the
`groupby` loop of line 34 visits them. -/
def groupKeys (df : List TickRec) : List (ℕ × ℕ × ℕ) :=
  List.insertionSort keyLe (df.map keyOf).dedup

/-- The slice of a dataframe falling on partition key `k` (one `group`
of the line-34 `groupby`, original row order preserved). -/
def groupOf (df : List TickRec) (k : ℕ × ℕ × ℕ) : List TickRec :=
  df.filter fun r => keyOf r == k

/-- The body of the line-34 loop for one partition key: concatenate the
incoming slice with the existing sub-table if present (lines 38-42),
deduplicate by timestamp and sort (line 46), write back (line 48). -/
def storePutCombined (df : List TickRec) (st : Store) (k : ℕ × ℕ × ℕ) : Store :=
  let payload := groupOf df k
  let combined :=
    match lookupStore st k with
    | some existing => existing ++ payload
    | none => payload
  putStore st k (dedupSortTs combined)

/-- Function `store_tick_data(df, asset)` (lines 11-48): partition `df` by the
calendar day of each timestamp; for each partition key concatenate with
the existing sub-table if present, deduplicate by timestamp, sort
ascending, and write the combined result back as the new sub-table. -/
def store_tick_data (df : List TickRec) (s : Store) : Store :=
  if df.isEmpty then s
  else (groupKeys df).foldl (storePutCombined df) s

/-! ### The gap-repair worker write (parallel_patch.py lines 74-107)

The worker stores each fetched day with `store.put(key, group)` directly
(lines 99-102): no merge with existing data, no deduplication, no sort. -/

/-- One worker iteration's write of fetched records `df` into the
worker's temporary store (lines 92-102). -/
def workerStoreDay (df : List TickRec) (s : Store) : Store :=
  if df.isEmpty then s
  else (groupKeys df).foldl (fun st k => putStore st k (groupOf df k)) s

/-- Contents of a partition in a store; the empty list when absent (an
absent partition holds no records). -/
def partAt (s : Store) (k : ℕ × ℕ × ℕ) : List TickRec :=
  (lookupStore s k).getD []

/-- The spec's partition invariant: adjacent timestamps are ascending
and no two records share a timestamp. -/
def ascNoDup (l : List TickRec) : Prop :=
  List.Chain' tsLe l ∧ (l.map TickRec.timestamp).Nodup

instance (l : List TickRec) : Decidable (ascNoDup l) :=
  inferInstanceAs
    (Decidable (List.Chain' tsLe l ∧ (l.map TickRec.timestamp).Nodup))

/-- The spec's store invariant: every materialized partition satisfies
the dedup + sort invariant. -/
def storeInv (s : Store) : Prop := ∀ p ∈ s, ascNoDup p.2

instance (s : Store) : Decidable (storeInv s) :=
  inferInstanceAs (Decidable (∀ p ∈ s, ascNoDup p.2))

/-- Two records on the same UTC day (1970-01-01) out of timestamp order. -/
def recEarly : TickRec := ⟨1, 0, 0, 0, 0⟩

/-- See `recEarly`. -/
def recLate : TickRec := ⟨2, 0, 0, 0, 0⟩

/-! ### Canonical merge (parallel_patch.py lines 152-171) -/

/-- The store-level merge loop of `merge_instrument_file` (lines
163-169), for an instrument whose staging file and canonical raw file
both exist: every staged key already present in canonical is skipped;
absent keys are put (appended) into canonical. -/
def merge_instrument_file (staged canonical : Store) : Store :=
  staged.foldl
    (fun raw kv =>
      if (lookupStore raw kv.1).isSome then raw else putStore raw kv.1 kv.2)
    canonical

/-! ### The integrity scanner (scanner.py)

An HDF5 file is modelled by its group tree: per instrument a list of
year groups (keyed by the integer parsed from `y{year}`), each a list of
month groups, each a list of day groups.  A day group records whether it
contains a `table` child and whether that dataset reads back cleanly. -/

/-- A day group node: `hasTable` is `"table" in day_group`, `tableGood`
is `is_dataset_good(day_group["table"])`. -/
structure DayGroup where
  hasTable : Bool
  tableGood : Bool
deriving DecidableEq, Repr

/-- Line 61: the day partition is good when the `table` child exists and
its data block materializes without error. -/
def dayGood (g : DayGroup) : Bool := g.hasTable && g.tableGood

/-- Child lookup in a group node (first match; HDF5 keys are unique). -/
def lookupGroup {β : Type} (l : List (ℕ × β)) (k : ℕ) : Option β :=
  match l with
  | [] => none
  | (k', v) :: rest => if k' = k then some v else lookupGroup rest k

/-- The `sorted(keys, key=lambda x: int(x[1:]))` of lines 42 and 46:
child groups in ascending numeric key order. -/
def sortByKey {β : Type} (l : List (ℕ × β)) : List (ℕ × β) :=
  List.insertionSort (fun a b => a.1 ≤ b.1) l

/-- Function `valid_dates(year, month)` (lines 21-25): every day of the month
except Saturdays (`weekday() == 5`). -/
def valid_dates (y m : ℕ) : List ℕ :=
  ((List.range (daysInMonth y m)).map (· + 1)).filter fun d => weekdayOf y m d != 5

/-- The `%Y-%m-%d` date string of line 51, as a number: zero-padded
string comparison and ordering agree with this numeric encoding. -/
def dateCode (y m d : ℕ) : ℕ := y * 10000 + m * 100 + d

/-- The range filter of lines 54-57: skip days strictly before
`start_date` or strictly after `end_date` (both bounds inclusive). -/
def inRange (sd ed : Option ℕ) (c : ℕ) : Bool :=
  (match sd with | none => true | some s => decide (s ≤ c)) &&
  (match ed with | none => true | some e => decide (c ≤ e))

/-- The days the line-50 loop examines within one present month group:
in-range valid dates paired with the day group found (or not) under
`d{day:02}` (lines 59-66). -/
def visitsMonth (sd ed : Option ℕ) (y m : ℕ) (mg : List (ℕ × DayGroup)) :
    List (ℕ × Option DayGroup) :=
  ((valid_dates y m).filter fun d => inRange sd ed (dateCode y m d)).map
    fun d => (dateCode y m d, lookupGroup mg d)

/-- The days examined within one present year group (line 46 loop). -/
def visitsYear (sd ed : Option ℕ) (y : ℕ) (yg : List (ℕ × List (ℕ × DayGroup))) :
    List (ℕ × Option DayGroup) :=
  (sortByKey yg).flatMap fun p => visitsMonth sd ed y p.1 p.2

/-- All days examined for one instrument (line 42 loop): only year and
month groups present in the file are enumerated. -/
def visitsInst (sd ed : Option ℕ)
    (inst : List (ℕ × List (ℕ × List (ℕ × DayGroup)))) :
    List (ℕ × Option DayGroup) :=
  (sortByKey inst).flatMap fun p => visitsYear sd ed p.1 p.2

/-- Scan state: `last_good_date`, `missing_groups`, `missing_tables`
(per instrument; dates as `dateCode` numbers). -/
abbrev ScanAcc : Type := Option ℕ × List ℕ × List ℕ

/-- The body of the day loop (lines 59-66): an absent day group goes to
`missing_groups`; a present group with a missing or unreadable table
goes to `missing_tables`; a good day overwrites `last_good_date`. -/
def scanStep (acc : ScanAcc) (v : ℕ × Option DayGroup) : ScanAcc :=
  match v.2 with
  | none => (acc.1, acc.2.1 ++ [v.1], acc.2.2)
  | some g =>
    if dayGood g then (some v.1, acc.2.1, acc.2.2)
    else (acc.1, acc.2.1, acc.2.2 ++ [v.1])

/-- The per-instrument body of `scan_hdf5` (lines 41-69). -/
def scanInstrument (sd ed : Option ℕ)
    (inst : List (ℕ × List (ℕ × List (ℕ × DayGroup)))) : ScanAcc :=
  (visitsInst sd ed inst).foldl scanStep (none, [], [])

/-- Function `scan_hdf5(file_path, start_date, end_date)` (lines 36-71): per
instrument, append `(instrument, last_good_date)` when a good day was
seen, and tag each missing-group and missing-table date with the
instrument. -/
def scan_hdf5 (sd ed : Option ℕ)
    (file : List (String × List (ℕ × List (ℕ × List (ℕ × DayGroup))))) :
    List (String × ℕ) × List (String × ℕ) × List (String × ℕ) :=
  file.foldl
    (fun acc p =>
      let r := scanInstrument sd ed p.2
      (acc.1 ++ (match r.1 with | some c => [(p.1, c)] | none => []),
       acc.2.1 ++ r.2.1.map (fun c => (p.1, c)),
       acc.2.2 ++ r.2.2.map (fun c => (p.1, c))))
    ([], [], [])

/-- A visited day that is present and readable (updates `last_good_date`). -/
def isGoodVisit (v : ℕ × Option DayGroup) : Bool :=
  match v.2 with
  | some g => dayGood g
  | none => false

/-- A visited day whose group is absent (goes to `missing_groups`). -/
def isMissingVisit (v : ℕ × Option DayGroup) : Bool := v.2.isNone

/-- A visited day whose group is present but whose table is missing or
unreadable (goes to `missing_tables`). -/
def isBadVisit (v : ℕ × Option DayGroup) : Bool :=
  match v.2 with
  | some g => !dayGood g
  | none => false

/-- Spec-side description: the dates of the in-range, non-Saturday days
whose partition is present with a readable table. -/
def goodCodes (sd ed : Option ℕ)
    (inst : List (ℕ × List (ℕ × List (ℕ × DayGroup)))) : List ℕ :=
  ((visitsInst sd ed inst).filter isGoodVisit).map Prod.fst

/-- Spec-side description: the expected in-range days absent from their
present month group. -/
def missingCodes (sd ed : Option ℕ)
    (inst : List (ℕ × List (ℕ × List (ℕ × DayGroup)))) : List ℕ :=
  ((visitsInst sd ed inst).filter isMissingVisit).map Prod.fst

/-- Spec-side description: the in-range days whose group is present but
whose table is missing or unreadable. -/
def badCodes (sd ed : Option ℕ)
    (inst : List (ℕ × List (ℕ × List (ℕ × DayGroup)))) : List ℕ :=
  ((visitsInst sd ed inst).filter isBadVisit).map Prod.fst

/-- Well-formed instrument tree: group keys are unique (HDF5 guarantees
this), years are datetime-representable, months parse to calendar months
(otherwise `calendar.monthrange` raises and the scan aborts). -/
def WFInst (inst : List (ℕ × List (ℕ × List (ℕ × DayGroup)))) : Prop :=
  (inst.map Prod.fst).Nodup ∧
  ∀ p ∈ inst, 1 ≤ p.1 ∧ p.1 ≤ 9999 ∧ (p.2.map Prod.fst).Nodup ∧
    ∀ q ∈ p.2, 1 ≤ q.1 ∧ q.1 ≤ 12

instance (inst : List (ℕ × List (ℕ × List (ℕ × DayGroup)))) :
    Decidable (WFInst inst) :=
  inferInstanceAs (Decidable ((inst.map Prod.fst).Nodup ∧
    ∀ p ∈ inst, 1 ≤ p.1 ∧ p.1 ≤ 9999 ∧ (p.2.map Prod.fst).Nodup ∧
      ∀ q ∈ p.2, 1 ≤ q.1 ∧ q.1 ≤ 12))

/-- Combinator for the overwrite semantics of `last_good_date = date_str`:
the last element written, if any, else the initial value. -/
def lastWrite (init : Option ℕ) (l : List ℕ) : Option ℕ :=
  l.foldl (fun _ c => some c) init

/-- Example instrument tree: one store holding March 2015 with day 2
good, day 3 present but corrupt, day 4 good, all other March days
absent, and no other month group. -/
def instEx : List (ℕ × List (ℕ × List (ℕ × DayGroup))) :=
  [(2015, [(3, [(2, ⟨true, true⟩), (3, ⟨true, false⟩), (4, ⟨true, true⟩)])])]

/-! ### The fetch concurrency model (fetch_tick_data.py lines 23-24, 59-104)

`FETCH_SEMAPHORE` is one process-wide `threading.BoundedSemaphore` of
capacity `MAX_CONCURRENT_FETCHES`.  Each concurrent
`fetch_tick_data_for_day` task is abstracted by its location in the
acquire/release protocol; the `finally` block (lines 91-96) releases the
slot on every exit of the protected region, so every transition out of
`inFlight` returns the permit in the same step. -/

/-- Location of one fetch task in the semaphore protocol. -/
inductive FetchLoc where
  | waiting
  | inFlight
  | backoff
  | done
deriving DecidableEq, Repr

/-- Global state: available permits of `FETCH_SEMAPHORE` plus the bag of
task locations (tasks are interchangeable). -/
structure FetchSys where
  sem : ℕ
  threads : Multiset FetchLoc

/-- Interleaved execution: a thread pool may submit a new task at any
time (`spawn`); `acquire` blocks unless a permit is free; leaving the
protected region releases the permit in the same step (the `finally`
of lines 91-96), whether the task then returns or backs off and retries. -/
inductive FetchStep : FetchSys → FetchSys → Prop where
  | spawn (s : ℕ) (ts : Multiset FetchLoc) :
      FetchStep ⟨s, ts⟩ ⟨s, .waiting ::ₘ ts⟩
  | acquire (s : ℕ) (ts : Multiset FetchLoc) :
      FetchStep ⟨s + 1, .waiting ::ₘ ts⟩ ⟨s, .inFlight ::ₘ ts⟩
  | releaseRetry (s : ℕ) (ts : Multiset FetchLoc) :
      FetchStep ⟨s, .inFlight ::ₘ ts⟩ ⟨s + 1, .backoff ::ₘ ts⟩
  | releaseReturn (s : ℕ) (ts : Multiset FetchLoc) :
      FetchStep ⟨s, .inFlight ::ₘ ts⟩ ⟨s + 1, .done ::ₘ ts⟩
  | wake (s : ℕ) (ts : Multiset FetchLoc) :
      FetchStep ⟨s, .backoff ::ₘ ts⟩ ⟨s, .waiting ::ₘ ts⟩

/-- Reachability under interleaved steps. -/
def fetchReachable : FetchSys → FetchSys → Prop :=
  Relation.ReflTransGen FetchStep

/-- Number of worker invocations currently in flight. -/
def inFlightCount (st : FetchSys) : ℕ := st.threads.count .inFlight

/-- The semaphore accounting invariant: free permits plus in-flight
holders equals the configured capacity. -/
def semInv (n : ℕ) (st : FetchSys) : Prop :=
  st.sem + inFlightCount st = n

/-! ## Theorems -/

/-! ### C6: backoff formula -/

/-- C6: for every attempt `1 <= a < FETCH_MAX_RETRIES` and every draw `u`
of `random.random()` (so `0 <= u < 1`), the slept delay equals
`min(backoff_max, backoff_base * 2^(a-1))` times the jitter factor
`0.5 + u/2`, which lies in `[0.5, 1)`; hence the delay is at most
`FETCH_BACKOFF_MAX` and at least half the capped exponential term. -/
theorem backoff_formula_bounds (a : ℕ) (u : ℚ)
    (ha : 1 ≤ a) (ha2 : a < FETCH_MAX_RETRIES) (hu0 : 0 ≤ u) (hu1 : u < 1) :
    sleepTimeOf a u =
      min FETCH_BACKOFF_MAX (FETCH_BACKOFF_BASE * 2 ^ (a - 1)) * (1 / 2 + u / 2) ∧
    1 / 2 ≤ 1 / 2 + u / 2 ∧ 1 / 2 + u / 2 < 1 ∧
    sleepTimeOf a u ≤ FETCH_BACKOFF_MAX ∧
    min FETCH_BACKOFF_MAX (FETCH_BACKOFF_BASE * 2 ^ (a - 1)) / 2 ≤ sleepTimeOf a u := by
  have hb0 : (0 : ℚ) ≤ backoffOf a := by
    refine le_min (by norm_num [FETCH_BACKOFF_MAX]) ?_
    unfold FETCH_BACKOFF_BASE
    positivity
  have hbmax : backoffOf a ≤ FETCH_BACKOFF_MAX := min_le_left _ _
  refine ⟨rfl, by linarith, by linarith, ?_, ?_⟩
  · have h1 : sleepTimeOf a u ≤ backoffOf a * 1 := by
      unfold sleepTimeOf
      exact mul_le_mul_of_nonneg_left (by linarith) hb0
    simpa using h1.trans (by simpa using hbmax)
  · have h2 : backoffOf a * (1 / 2) ≤ backoffOf a * (1 / 2 + u / 2) :=
      mul_le_mul_of_nonneg_left (by linarith) hb0
    calc min FETCH_BACKOFF_MAX (FETCH_BACKOFF_BASE * 2 ^ (a - 1)) / 2
        = backoffOf a * (1 / 2) := by unfold backoffOf; ring
      _ ≤ sleepTimeOf a u := h2

/-- C6 witness: attempt 1 with jitter draw 0. -/
theorem backoff_formula_bounds_check :
    sleepTimeOf 1 0 =
      min FETCH_BACKOFF_MAX (FETCH_BACKOFF_BASE * 2 ^ (1 - 1)) * (1 / 2 + 0 / 2) ∧
    1 / 2 ≤ (1 : ℚ) / 2 + 0 / 2 ∧ (1 : ℚ) / 2 + 0 / 2 < 1 ∧
    sleepTimeOf 1 0 ≤ FETCH_BACKOFF_MAX ∧
    min FETCH_BACKOFF_MAX (FETCH_BACKOFF_BASE * 2 ^ (1 - 1)) / 2 ≤ sleepTimeOf 1 0 :=
  backoff_formula_bounds 1 0 (by norm_num) (by norm_num [FETCH_MAX_RETRIES])
    (by norm_num) (by norm_num)

/-! ### C7: chunkify -/

/-- The chunk loop always produces exactly `n` chunks. -/
theorem chunkAux_length (lst : List α) (q n r : ℕ) :
    (chunkAux lst q n r).length = n := by
  induction n generalizing lst r with
  | zero => rfl
  | succ n ih => simp [chunkAux, ih]

/-- Concatenating the chunks reproduces the consumed prefix. -/
theorem chunkAux_flatten (q : ℕ) :
    ∀ (n : ℕ) (lst : List α) (r : ℕ),
      (chunkAux lst q n r).flatten = lst.take (n * q + min n r) := by
  intro n
  induction n with
  | zero => intro lst r; simp [chunkAux]
  | succ n ih =>
    intro lst r
    cases r with
    | zero =>
      simp only [chunkAux, if_neg (lt_irrefl 0), Nat.add_zero, List.flatten_cons, ih,
        Nat.min_zero]
      rw [← List.take_add]
      congr 1
      rw [Nat.succ_mul]
      generalize n * q = P
      omega
    | succ r =>
      simp only [chunkAux, if_pos (Nat.succ_pos r), Nat.succ_sub_one, List.flatten_cons, ih]
      rw [← List.take_add]
      congr 1
      rw [Nat.succ_mul, Nat.succ_min_succ]
      generalize n * q = P
      omega

/-- Chunk `i` has `q` elements plus one extra exactly while extras
remain, provided the list is long enough for the whole split. -/
theorem chunkAux_getD (q : ℕ) :
    ∀ (n : ℕ) (lst : List α) (r i : ℕ), i < n → n * q + min n r ≤ lst.length →
      ((chunkAux lst q n r).getD i []).length = q + if i < r then 1 else 0 := by
  intro n
  induction n with
  | zero => intro lst r i hi; omega
  | succ n ih =>
    intro lst r i hi hlen
    cases i with
    | zero =>
      cases r with
      | zero =>
        simp only [chunkAux, if_neg (lt_irrefl 0), Nat.add_zero, List.getD_cons_zero,
          List.length_take, if_neg (lt_irrefl 0)]
        rw [Nat.succ_mul] at hlen
        rw [Nat.min_zero] at hlen
        exact Nat.min_eq_left (by omega)
      | succ r =>
        simp only [chunkAux, if_pos (Nat.succ_pos r), List.getD_cons_zero,
          List.length_take, if_pos (Nat.succ_pos r)]
        rw [Nat.succ_mul, Nat.succ_min_succ] at hlen
        exact Nat.min_eq_left (by omega)
    | succ i =>
      cases r with
      | zero =>
        simp only [chunkAux, if_neg (lt_irrefl 0), Nat.add_zero, List.getD_cons_succ]
        have h1 : n * q + min n 0 ≤ (lst.drop q).length := by
          rw [List.length_drop, Nat.min_zero]
          rw [Nat.succ_mul, Nat.min_zero] at hlen
          omega
        rw [ih (lst.drop q) 0 i (by omega) h1]
        simp
      | succ r =>
        simp only [chunkAux, if_pos (Nat.succ_pos r), Nat.succ_sub_one, List.getD_cons_succ]
        have h1 : n * q + min n r ≤ (lst.drop (q + 1)).length := by
          rw [List.length_drop]
          rw [Nat.succ_mul, Nat.succ_min_succ] at hlen
          omega
        rw [ih (lst.drop (q + 1)) r i (by omega) h1]
        simp [Nat.succ_lt_succ_iff]

/-- C7: for `n > 0`, `chunkify(lst, n)` returns exactly `n` chunks whose
concatenation in order is `lst`; every chunk has `floor(len/n)` or
`floor(len/n)+1` elements, and exactly the first `len mod n` chunks
carry the extra element. -/
theorem chunkify_even_split (lst : List α) (n : ℕ) (hn : 0 < n) :
    (chunkify lst n).length = n ∧
    (chunkify lst n).flatten = lst ∧
    (∀ c ∈ chunkify lst n,
      c.length = lst.length / n ∨ c.length = lst.length / n + 1) ∧
    ∀ i, i < n → ((chunkify lst n).getD i []).length =
      lst.length / n + if i < lst.length % n then 1 else 0 := by
  have hn0 : n ≠ 0 := hn.ne'
  have hmod : lst.length % n < n := Nat.mod_lt _ hn
  have hmin : min n (lst.length % n) = lst.length % n := Nat.min_eq_right hmod.le
  have hlen : n * (lst.length / n) + min n (lst.length % n) = lst.length := by
    rw [hmin]; exact Nat.div_add_mod _ _
  have h4 : ∀ i, i < n → ((chunkify lst n).getD i []).length =
      lst.length / n + if i < lst.length % n then 1 else 0 := by
    intro i hi
    unfold chunkify
    rw [if_neg hn0]
    exact chunkAux_getD _ _ _ _ _ hi hlen.le
  refine ⟨?_, ?_, ?_, h4⟩
  · unfold chunkify; rw [if_neg hn0]; exact chunkAux_length _ _ _ _
  · unfold chunkify; rw [if_neg hn0, chunkAux_flatten, hlen, List.take_length]
  · intro c hc
    have hlc : (chunkify lst n).length = n := by
      unfold chunkify; rw [if_neg hn0]; exact chunkAux_length _ _ _ _
    obtain ⟨i, hi, rfl⟩ := List.mem_iff_getElem.mp hc
    have hi' : i < n := hlc ▸ hi
    have := h4 i hi'
    rw [List.getD_eq_getElem _ _ hi] at this
    rw [this]
    by_cases hcase : i < lst.length % n
    · right; rw [if_pos hcase]
    · left; simp [hcase]

/-- C7 witness: the list `[1, 2, 3]` split across 2 workers. -/
theorem chunkify_even_split_check :
    (chunkify [1, 2, 3] 2).length = 2 ∧
    (chunkify [1, 2, 3] 2).flatten = [1, 2, 3] ∧
    (∀ c ∈ chunkify [1, 2, 3] 2,
      c.length = [1, 2, 3].length / 2 ∨ c.length = [1, 2, 3].length / 2 + 1) ∧
    ∀ i, i < 2 → ((chunkify [1, 2, 3] 2).getD i []).length =
      [1, 2, 3].length / 2 + if i < [1, 2, 3].length % 2 then 1 else 0 :=
  chunkify_even_split [1, 2, 3] 2 (by norm_num)

/-! ### C4: retry termination, no exception, no hang -/

/-- The attempt counter never exceeds the starting count plus the
remaining budget: the loop is bounded. -/
theorem fetchAux_attempts_le (parse : String → Option (List TickRec))
    (oracle : ℕ → WorkerOutcome) :
    ∀ rem att, (fetchAux parse oracle rem att).2 ≤ att + rem := by
  intro rem
  induction rem with
  | zero => intro att; simp [fetchAux]
  | succ rem ih =>
    intro att
    simp only [fetchAux]
    cases h : oracle (att + 1) with
    | notFound => simp
    | timeout => exact (ih (att + 1)).trans (by omega)
    | completed rc out =>
      dsimp only
      by_cases hrc : rc ≠ 0
      · rw [if_pos hrc]
        exact (ih (att + 1)).trans (by omega)
      · rw [if_neg hrc]
        cases hp : parse (if out = "" then "[]" else out) with
        | some payload => simp
        | none => exact (ih (att + 1)).trans (by omega)

/-- Under an oracle whose every outcome is transient, the loop consumes
the whole budget and returns the empty list. -/
theorem fetchAux_always_transient (parse : String → Option (List TickRec))
    (oracle : ℕ → WorkerOutcome)
    (htr : ∀ k, transientOutcome parse (oracle k)) :
    ∀ rem att, fetchAux parse oracle rem att = ([], att + rem) := by
  intro rem
  induction rem with
  | zero => intro att; simp [fetchAux]
  | succ rem ih =>
    intro att
    have hk := htr (att + 1)
    simp only [fetchAux]
    cases h : oracle (att + 1) with
    | notFound => rw [h] at hk; exact absurd hk (by simp [transientOutcome])
    | timeout =>
      rw [show att + (rem + 1) = att + 1 + rem from by omega]
      exact ih (att + 1)
    | completed rc out =>
      rw [h] at hk
      dsimp only
      by_cases hrc : rc ≠ 0
      · rw [if_pos hrc, show att + (rem + 1) = att + 1 + rem from by omega]
        exact ih (att + 1)
      · rw [if_neg hrc]
        have hp : parse (if out = "" then "[]" else out) = none := by
          rcases hk with hk | hk
          · exact absurd hk hrc
          · exact hk
        rw [hp, show att + (rem + 1) = att + 1 + rem from by omega]
        exact ih (att + 1)

/-- C4: `fetch_tick_data_for_day` always terminates within
`FETCH_MAX_RETRIES` attempts (every classified worker outcome maps to a
return value, never an escaping exception), and when every invocation
fails transiently it returns the empty list after exactly
`FETCH_MAX_RETRIES` attempts. -/
theorem fetch_day_retry_termination (parse : String → Option (List TickRec))
    (oracle : ℕ → WorkerOutcome) (maxRetries : ℕ) :
    (fetch_tick_data_for_day parse oracle maxRetries).2 ≤ maxRetries ∧
    ((∀ k, transientOutcome parse (oracle k)) →
      fetch_tick_data_for_day parse oracle maxRetries = ([], maxRetries)) := by
  constructor
  · have := fetchAux_attempts_le parse oracle maxRetries 0
    simpa [fetch_tick_data_for_day] using this
  · intro htr
    have := fetchAux_always_transient parse oracle htr maxRetries 0
    simpa [fetch_tick_data_for_day] using this

/-- C4 witness: a worker that always times out, with the default cap of
3 attempts. -/
theorem fetch_day_retry_termination_check :
    (fetch_tick_data_for_day (fun _ => none) alwaysTimeout FETCH_MAX_RETRIES).2 ≤
      FETCH_MAX_RETRIES ∧
    fetch_tick_data_for_day (fun _ => none) alwaysTimeout FETCH_MAX_RETRIES =
      ([], FETCH_MAX_RETRIES) :=
  ⟨(fetch_day_retry_termination (fun _ => none) alwaysTimeout FETCH_MAX_RETRIES).1,
   (fetch_day_retry_termination (fun _ => none) alwaysTimeout FETCH_MAX_RETRIES).2
     (by intro k; simp [alwaysTimeout, transientOutcome])⟩

/-! ### C5: empty worker output -/

/-- C5 counterexample: a worker that exits 0 with empty stdout is NOT
retried — the `result.stdout or '[]'` fallback decodes to an empty
payload, which line 86 returns as a success on the very first attempt,
not after `FETCH_MAX_RETRIES` attempts. -/
theorem empty_output_first_attempt_success :
    fetch_tick_data_for_day parseEmptyArr emptySuccessOracle FETCH_MAX_RETRIES = ([], 1) ∧
    (fetch_tick_data_for_day parseEmptyArr emptySuccessOracle FETCH_MAX_RETRIES).2 ≠
      FETCH_MAX_RETRIES := by
  constructor <;> decide

/-- C5 amended: a worker invocation that exits successfully with empty
output is treated as a success, returning the empty list immediately on
that attempt with no retry; only timeouts, non-zero exits and
undecodable output are transient. -/
theorem empty_output_treated_as_success (parse : String → Option (List TickRec))
    (oracle : ℕ → WorkerOutcome) (maxRetries : ℕ) (hm : 0 < maxRetries)
    (h1 : oracle 1 = .completed 0 "") (hp : parse "[]" = some []) :
    fetch_tick_data_for_day parse oracle maxRetries = ([], 1) := by
  cases maxRetries with
  | zero => omega
  | succ rem =>
    simp only [fetch_tick_data_for_day, fetchAux, Nat.zero_add, h1]
    rw [if_neg (by simp)]
    simp [hp]

/-- C5 amended witness: the concrete always-empty-success worker. -/
theorem empty_output_treated_as_success_check :
    fetch_tick_data_for_day parseEmptyArr emptySuccessOracle 3 = ([], 1) :=
  empty_output_treated_as_success parseEmptyArr emptySuccessOracle 3
    (by norm_num) (by rfl) (by rfl)

/-! ### C9: concurrency bound -/

/-- Every protocol step preserves the semaphore accounting invariant:
in particular each transition out of `inFlight` (the `finally` block)
returns the permit in the same step. -/
theorem fetchStep_preserves_semInv (n : ℕ) (a b : FetchSys)
    (h : FetchStep a b) (hi : semInv n a) : semInv n b := by
  cases h with
  | spawn s ts =>
    unfold semInv inFlightCount at *
    simpa [Multiset.count_cons_of_ne (by simp : FetchLoc.inFlight ≠ FetchLoc.waiting)]
      using hi
  | acquire s ts =>
    unfold semInv inFlightCount at *
    simp only [Multiset.count_cons_self,
      Multiset.count_cons_of_ne (by simp : FetchLoc.inFlight ≠ FetchLoc.waiting)] at *
    omega
  | releaseRetry s ts =>
    unfold semInv inFlightCount at *
    simp only [Multiset.count_cons_self,
      Multiset.count_cons_of_ne (by simp : FetchLoc.inFlight ≠ FetchLoc.backoff)] at *
    omega
  | releaseReturn s ts =>
    unfold semInv inFlightCount at *
    simp only [Multiset.count_cons_self,
      Multiset.count_cons_of_ne (by simp : FetchLoc.inFlight ≠ FetchLoc.done)] at *
    omega
  | wake s ts =>
    unfold semInv inFlightCount at *
    simp only [Multiset.count_cons_of_ne (by simp : FetchLoc.inFlight ≠ FetchLoc.backoff),
      Multiset.count_cons_of_ne (by simp : FetchLoc.inFlight ≠ FetchLoc.waiting)] at *
    omega

/-- C9: starting from a full semaphore of capacity `n` with no task in
flight, every reachable interleaving — whatever tasks the surrounding
pools spawn — has at most `n` worker invocations simultaneously in
flight. -/
theorem fetch_concurrency_bound (n : ℕ) (ts0 : Multiset FetchLoc) (st : FetchSys)
    (h0 : ts0.count .inFlight = 0)
    (hr : fetchReachable ⟨n, ts0⟩ st) : inFlightCount st ≤ n := by
  have hinv : semInv n st := by
    induction hr with
    | refl => unfold semInv inFlightCount; simp [h0]
    | tail _ hstep ih => exact fetchStep_preserves_semInv n _ _ hstep ih
  unfold semInv at hinv
  omega

/-- C9 witness: the initial state with one waiting task and the default
capacity. -/
theorem fetch_concurrency_bound_check :
    ({FetchLoc.waiting} : Multiset FetchLoc).count .inFlight = 0 ∧
    inFlightCount ⟨MAX_CONCURRENT_FETCHES, {FetchLoc.waiting}⟩ ≤ MAX_CONCURRENT_FETCHES :=
  ⟨by decide,
   fetch_concurrency_bound MAX_CONCURRENT_FETCHES {FetchLoc.waiting} _ (by decide)
     Relation.ReflTransGen.refl⟩

/-! ### C3: canonical-wins merge -/

/-- Unfolding lemma for `lookupStore` over a cons cell. -/
theorem lookupStore_cons (k' : ℕ × ℕ × ℕ) (v : List TickRec) (rest : Store)
    (k : ℕ × ℕ × ℕ) :
    lookupStore ((k', v) :: rest) k = if k' = k then some v else lookupStore rest k := rfl

/-- Put then lookup: the written key reads back the new value,
every other key is untouched. -/
theorem lookupStore_putStore (s : Store) (k0 k : ℕ × ℕ × ℕ) (v : List TickRec) :
    lookupStore (putStore s k0 v) k = if k0 = k then some v else lookupStore s k := by
  induction s with
  | nil => rfl
  | cons p rest ih =>
    obtain ⟨k', v'⟩ := p
    simp only [putStore]
    by_cases h : k' = k0
    · subst h
      rw [if_pos rfl, lookupStore_cons, lookupStore_cons]
      by_cases h2 : k' = k
      · rw [if_pos h2, if_pos h2]
      · rw [if_neg h2, if_neg h2, if_neg h2]
    · rw [if_neg h, lookupStore_cons, ih, lookupStore_cons]
      by_cases h2 : k' = k
      · have hk0 : ¬k0 = k := fun hc => h (h2.trans hc.symm)
        rw [if_pos h2, if_neg hk0, if_pos h2]
      · rw [if_neg h2, if_neg h2]

/-- C3: `merge_instrument_file` is canonical-wins — looking up any
partition key in the merged store gives the canonical partition when the
key was already present, and otherwise the staged partition: exactly the
staged keys absent from canonical are copied, and every existing
canonical partition is left unchanged. -/
theorem merge_canonical_wins (staged canonical : Store) (k : ℕ × ℕ × ℕ) :
    lookupStore (merge_instrument_file staged canonical) k =
      (lookupStore canonical k).or (lookupStore staged k) := by
  induction staged generalizing canonical with
  | nil =>
    simp only [merge_instrument_file, List.foldl_nil, lookupStore]
    cases lookupStore canonical k <;> rfl
  | cons kv rest ih =>
    have hstep : merge_instrument_file (kv :: rest) canonical =
        merge_instrument_file rest
          (if (lookupStore canonical kv.1).isSome then canonical
           else putStore canonical kv.1 kv.2) := rfl
    rw [hstep]
    by_cases hp : (lookupStore canonical kv.1).isSome
    · rw [if_pos hp, ih]
      obtain ⟨kk, vv⟩ := kv
      rw [lookupStore_cons]
      by_cases hk : kk = k
      · subst hk
        obtain ⟨w, hw⟩ := Option.isSome_iff_exists.mp hp
        rw [hw, if_pos rfl]
        rfl
      · rw [if_neg hk]
    · rw [if_neg hp, ih, lookupStore_putStore]
      obtain ⟨kk, vv⟩ := kv
      rw [lookupStore_cons]
      simp only at hp ⊢
      by_cases hk : kk = k
      · subst hk
        rw [if_pos rfl, if_pos rfl]
        have hnone : lookupStore canonical kk = none :=
          Option.not_isSome_iff_eq_none.mp hp
        rw [hnone]
        rfl
      · rw [if_neg hk, if_neg hk]

/-! ### C2: idempotent merge-on-write store -/

/-- Timestamp membership is preserved by `drop_duplicates`. -/
theorem mem_map_ts_dedupByTs (l : List TickRec) (t : ℕ) :
    t ∈ (dedupByTs l).map TickRec.timestamp ↔ t ∈ l.map TickRec.timestamp := by
  induction l using dedupByTs.induct with
  | case1 => simp [dedupByTs]
  | case2 r rs ih =>
    simp only [dedupByTs, List.map_cons, List.mem_cons, ih, List.mem_map,
      List.mem_filter, bne_iff_ne, ne_eq]
    constructor
    · rintro (h | ⟨x, ⟨hx, _⟩, hxt⟩)
      · exact Or.inl h
      · exact Or.inr ⟨x, hx, hxt⟩
    · rintro (h | ⟨x, hx, hxt⟩)
      · exact Or.inl h
      · by_cases ht : t = r.timestamp
        · exact Or.inl ht
        · exact Or.inr ⟨x, ⟨hx, by rw [hxt]; exact ht⟩, hxt⟩

/-- After `drop_duplicates` the timestamps are pairwise distinct. -/
theorem nodup_map_ts_dedupByTs (l : List TickRec) :
    ((dedupByTs l).map TickRec.timestamp).Nodup := by
  induction l using dedupByTs.induct with
  | case1 => simp [dedupByTs]
  | case2 r rs ih =>
    simp only [dedupByTs, List.map_cons, List.nodup_cons]
    refine ⟨?_, ih⟩
    rw [mem_map_ts_dedupByTs]
    simp only [List.mem_map, List.mem_filter, bne_iff_ne, ne_eq]
    rintro ⟨x, ⟨_, hne⟩, hxt⟩
    exact hne hxt

/-- Dropping duplicates is the identity on timestamp-unique data. -/
theorem dedupByTs_eq_self :
    ∀ l : List TickRec, (l.map TickRec.timestamp).Nodup → dedupByTs l = l := by
  intro l
  induction l using dedupByTs.induct with
  | case1 => intro _; simp [dedupByTs]
  | case2 r rs ih =>
    intro h
    rw [List.map_cons] at h
    obtain ⟨h1, h2⟩ := List.nodup_cons.mp h
    have hf : rs.filter (fun x => x.timestamp != r.timestamp) = rs := by
      apply List.filter_eq_self.mpr
      intro x hx
      rw [bne_iff_ne]
      intro hc
      exact h1 (List.mem_map.mpr ⟨x, hx, hc⟩)
    rw [hf] at ih
    simp only [dedupByTs, hf, ih h2]

/-- Concatenating only records whose timestamps are already present does
not change the deduplicated result. -/
theorem dedupByTs_append_absorb :
    ∀ a b : List TickRec,
      (∀ x ∈ b, x.timestamp ∈ a.map TickRec.timestamp) →
      dedupByTs (a ++ b) = dedupByTs a := by
  intro a
  induction a using dedupByTs.induct with
  | case1 =>
    intro b hb
    cases b with
    | nil => rfl
    | cons x xs =>
      have hx := hb x (List.mem_cons_self _ _)
      simp at hx
  | case2 r rs ih =>
    intro b hb
    rw [List.cons_append]
    simp only [dedupByTs, List.filter_append]
    congr 1
    apply ih
    intro x hx
    obtain ⟨hxb, hxp⟩ := List.mem_filter.mp hx
    rw [bne_iff_ne] at hxp
    have hmem := hb x hxb
    rw [List.map_cons, List.mem_cons] at hmem
    rcases hmem with h1 | h1
    · exact absurd h1 hxp
    · obtain ⟨y, hy, hyt⟩ := List.mem_map.mp h1
      refine List.mem_map.mpr ⟨y, List.mem_filter.mpr ⟨hy, ?_⟩, hyt⟩
      rw [bne_iff_ne, hyt]
      exact hxp

/-- The dedup-sort normal form satisfies the dedup + sort invariant. -/
theorem ascNoDup_dedupSortTs (l : List TickRec) : ascNoDup (dedupSortTs l) := by
  constructor
  · rw [List.chain'_iff_pairwise]
    exact List.sorted_insertionSort tsLe (dedupByTs l)
  · have hperm : ((dedupByTs l).map TickRec.timestamp).Perm
        ((dedupSortTs l).map TickRec.timestamp) :=
      ((List.perm_insertionSort tsLe (dedupByTs l)).symm).map TickRec.timestamp
    exact hperm.nodup (nodup_map_ts_dedupByTs l)

/-- Timestamp membership is preserved by the dedup-sort normal form. -/
theorem mem_map_ts_dedupSortTs (l : List TickRec) (t : ℕ) :
    t ∈ (dedupSortTs l).map TickRec.timestamp ↔ t ∈ l.map TickRec.timestamp := by
  unfold dedupSortTs sortByTs
  rw [((List.perm_insertionSort tsLe (dedupByTs l)).map TickRec.timestamp).mem_iff,
    mem_map_ts_dedupByTs]

/-- Re-deduplicating a normal form extended by already-present
timestamps gives back the normal form. -/
theorem dedupSortTs_absorb (c payload : List TickRec)
    (hp : ∀ x ∈ payload, x.timestamp ∈ (dedupSortTs c).map TickRec.timestamp) :
    dedupSortTs (dedupSortTs c ++ payload) = dedupSortTs c := by
  have h1 : dedupByTs (dedupSortTs c ++ payload) = dedupByTs (dedupSortTs c) :=
    dedupByTs_append_absorb _ _ hp
  have h2 : dedupByTs (dedupSortTs c) = dedupSortTs c :=
    dedupByTs_eq_self _ (ascNoDup_dedupSortTs c).2
  have h3 : List.Sorted tsLe (dedupSortTs c) := by
    have hc := (ascNoDup_dedupSortTs c).1
    rwa [List.chain'_iff_pairwise] at hc
  show sortByTs (dedupByTs (dedupSortTs c ++ payload)) = dedupSortTs c
  rw [h1, h2]
  exact h3.insertionSort_eq

/-- The loop body in merge form: put the dedup-sorted concatenation of
the existing partition and the incoming slice. -/
theorem storePutCombined_eq (df : List TickRec) (st : Store) (k : ℕ × ℕ × ℕ) :
    storePutCombined df st k =
      putStore st k (dedupSortTs (partAt st k ++ groupOf df k)) := by
  unfold storePutCombined partAt
  cases h : lookupStore st k <;> simp [h]

/-- Keys not in the written key set are untouched by the write loop. -/
theorem lookup_foldl_store_notmem (df : List TickRec) :
    ∀ (keys : List (ℕ × ℕ × ℕ)) (s : Store) (k : ℕ × ℕ × ℕ), k ∉ keys →
      lookupStore (keys.foldl (storePutCombined df) s) k = lookupStore s k := by
  intro keys
  induction keys with
  | nil => intro s k _; rfl
  | cons k0 rest ih =>
    intro s k hk
    simp only [List.foldl_cons]
    rw [ih _ _ (fun h => hk (List.mem_cons_of_mem _ h))]
    rw [storePutCombined_eq, lookupStore_putStore]
    apply if_neg
    intro h
    apply hk
    rw [← h]
    exact List.mem_cons_self _ _

/-- Every written key reads back the dedup-sorted merge of the original
partition with the incoming slice. -/
theorem lookup_foldl_store_mem (df : List TickRec) :
    ∀ (keys : List (ℕ × ℕ × ℕ)) (s : Store) (k : ℕ × ℕ × ℕ),
      keys.Nodup → k ∈ keys →
      lookupStore (keys.foldl (storePutCombined df) s) k =
        some (dedupSortTs (partAt s k ++ groupOf df k)) := by
  intro keys
  induction keys with
  | nil => intro s k _ hk; cases hk
  | cons k0 rest ih =>
    intro s k hnd hk
    simp only [List.foldl_cons]
    rcases List.mem_cons.mp hk with hk0 | hkr
    · subst hk0
      rw [lookup_foldl_store_notmem df rest _ _ (List.nodup_cons.mp hnd).1]
      rw [storePutCombined_eq, lookupStore_putStore, if_pos rfl]
    · have hne : ¬k0 = k := by
        intro h
        subst h
        exact (List.nodup_cons.mp hnd).1 hkr
      rw [ih _ _ (List.nodup_cons.mp hnd).2 hkr]
      have hpa : partAt (storePutCombined df s k0) k = partAt s k := by
        rw [storePutCombined_eq]
        unfold partAt
        rw [lookupStore_putStore, if_neg hne]
      rw [hpa]

/-- Re-putting the value a key already holds leaves the store equal. -/
theorem putStore_self :
    ∀ (s : Store) (k : ℕ × ℕ × ℕ) (v : List TickRec),
      lookupStore s k = some v → putStore s k v = s := by
  intro s
  induction s with
  | nil => intro k v h; simp [lookupStore] at h
  | cons p rest ih =>
    intro k v h
    obtain ⟨k', v'⟩ := p
    rw [lookupStore_cons] at h
    by_cases hk : k' = k
    · subst hk
      rw [if_pos rfl] at h
      injection h with h
      subst h
      simp [putStore]
    · rw [if_neg hk] at h
      simp only [putStore, if_neg hk]
      rw [ih _ _ h]

/-- A fold whose every step fixes the state is the identity. -/
theorem foldl_fixed {β : Type} (f : Store → β → Store) :
    ∀ (keys : List β) (s : Store),
      (∀ k ∈ keys, f s k = s) → keys.foldl f s = s := by
  intro keys
  induction keys with
  | nil => intro s _; rfl
  | cons k0 rest ih =>
    intro s h
    simp only [List.foldl_cons, h k0 (List.mem_cons_self _ _)]
    exact ih s (fun k hk => h k (List.mem_cons_of_mem _ hk))

/-- The groupby key list has no duplicate keys. -/
theorem groupKeys_nodup (df : List TickRec) : (groupKeys df).Nodup :=
  ((List.perm_insertionSort keyLe (df.map keyOf).dedup).symm).nodup
    (List.nodup_dedup _)

/-- The groupby key list holds exactly the days of the dataframe. -/
theorem mem_groupKeys (df : List TickRec) (k : ℕ × ℕ × ℕ) :
    k ∈ groupKeys df ↔ k ∈ df.map keyOf := by
  unfold groupKeys
  rw [List.mem_insertionSort, List.mem_dedup]

/-- The timestamps of a groupby slice are those of the dataframe's
records falling on the slice's day. -/
theorem mem_map_ts_groupOf (df : List TickRec) (k : ℕ × ℕ × ℕ) (t : ℕ) :
    t ∈ (groupOf df k).map TickRec.timestamp ↔
      ∃ r ∈ df, keyOf r = k ∧ r.timestamp = t := by
  unfold groupOf
  simp only [List.mem_map, List.mem_filter, beq_iff_eq]
  constructor
  · rintro ⟨r, ⟨hr, hk⟩, ht⟩
    exact ⟨r, hr, hk, ht⟩
  · rintro ⟨r, hr, hk, ht⟩
    exact ⟨r, ⟨hr, hk⟩, ht⟩

/-- C2: `store_tick_data` is idempotent — writing the same record set
twice leaves every partition exactly as one write does — and on any
store a write changes a partition's timestamp set only by adding the
incoming day's timestamps: the result holds a timestamp iff the old
partition held it or an incoming record of that day carries it. -/
theorem store_tick_data_idempotent (df : List TickRec) (s : Store) :
    store_tick_data df (store_tick_data df s) = store_tick_data df s ∧
    ∀ (k : ℕ × ℕ × ℕ) (t : ℕ),
      t ∈ (partAt (store_tick_data df s) k).map TickRec.timestamp ↔
        (t ∈ (partAt s k).map TickRec.timestamp ∨
          ∃ r ∈ df, keyOf r = k ∧ r.timestamp = t) := by
  by_cases hdf : df.isEmpty
  · have hdf0 : df = [] := List.isEmpty_iff.mp hdf
    subst hdf0
    refine ⟨by simp [store_tick_data], ?_⟩
    intro k t
    simp [store_tick_data]
  · have hst : store_tick_data df s = (groupKeys df).foldl (storePutCombined df) s := by
      rw [store_tick_data, if_neg hdf]
    constructor
    · rw [hst, store_tick_data, if_neg hdf]
      apply foldl_fixed
      intro k hk
      have hv1 : lookupStore ((groupKeys df).foldl (storePutCombined df) s) k =
          some (dedupSortTs (partAt s k ++ groupOf df k)) :=
        lookup_foldl_store_mem df _ _ _ (groupKeys_nodup df) hk
      rw [storePutCombined_eq]
      have hpa : partAt ((groupKeys df).foldl (storePutCombined df) s) k =
          dedupSortTs (partAt s k ++ groupOf df k) := by
        unfold partAt
        rw [hv1]
        rfl
      rw [hpa, dedupSortTs_absorb]
      · exact putStore_self _ _ _ hv1
      · intro x hx
        rw [mem_map_ts_dedupSortTs, List.map_append, List.mem_append]
        exact Or.inr (List.mem_map.mpr ⟨x, hx, rfl⟩)
    · intro k t
      by_cases hk : k ∈ groupKeys df
      · rw [hst]
        have hv1 := lookup_foldl_store_mem df _ s _ (groupKeys_nodup df) hk
        unfold partAt
        rw [hv1]
        simp only [Option.getD_some]
        rw [mem_map_ts_dedupSortTs, List.map_append, List.mem_append,
          mem_map_ts_groupOf]
        unfold partAt
        exact Iff.rfl
      · have hnone : ∀ r ∈ df, keyOf r = k → False := by
          intro r hr hrk
          exact hk ((mem_groupKeys df k).mpr (List.mem_map.mpr ⟨r, hr, hrk⟩))
        rw [hst]
        unfold partAt
        rw [lookup_foldl_store_notmem df _ _ _ hk]
        constructor
        · exact Or.inl
        · rintro (h | ⟨r, hr, hrk, _⟩)
          · exact h
          · exact (hnone r hr hrk).elim

/-! ### C1: dedup + sort invariant -/

/-- Membership after a put: the written entry or an original entry. -/
theorem mem_putStore :
    ∀ (s : Store) (k : ℕ × ℕ × ℕ) (v : List TickRec) (p),
      p ∈ putStore s k v → p = (k, v) ∨ p ∈ s := by
  intro s
  induction s with
  | nil =>
    intro k v p hp
    simp only [putStore, List.mem_singleton] at hp
    exact Or.inl hp
  | cons q rest ih =>
    intro k v p hp
    obtain ⟨k', v'⟩ := q
    by_cases h : k' = k
    · simp only [putStore, if_pos h] at hp
      rcases List.mem_cons.mp hp with h1 | h1
      · exact Or.inl h1
      · exact Or.inr (List.mem_cons_of_mem _ h1)
    · simp only [putStore, if_neg h] at hp
      rcases List.mem_cons.mp hp with h1 | h1
      · exact Or.inr (h1 ▸ List.mem_cons_self _ _)
      · rcases ih k v p h1 with h2 | h2
        · exact Or.inl h2
        · exact Or.inr (List.mem_cons_of_mem _ h2)

/-- Putting an invariant-satisfying partition preserves the store
invariant. -/
theorem storeInv_putStore (s : Store) (k : ℕ × ℕ × ℕ) (v : List TickRec)
    (hs : storeInv s) (hv : ascNoDup v) : storeInv (putStore s k v) := by
  intro p hp
  rcases mem_putStore s k v p hp with h | h
  · rw [h]
    exact hv
  · exact hs p h

/-- One `store_tick_data` write preserves the store invariant: every
partition it materializes is dedup-sorted. -/
theorem storeInv_store_tick_data (df : List TickRec) (s : Store)
    (hs : storeInv s) : storeInv (store_tick_data df s) := by
  unfold store_tick_data
  by_cases hdf : df.isEmpty
  · rwa [if_pos hdf]
  · rw [if_neg hdf]
    have hfold : ∀ (keys : List (ℕ × ℕ × ℕ)) (st : Store), storeInv st →
        storeInv (keys.foldl (storePutCombined df) st) := by
      intro keys
      induction keys with
      | nil => intro st h; exact h
      | cons k0 rest ih =>
        intro st h
        simp only [List.foldl_cons]
        apply ih
        rw [storePutCombined_eq]
        exact storeInv_putStore _ _ _ h (ascNoDup_dedupSortTs _)
    exact hfold _ s hs

/-- C1 (amended): after any sequence of `store_tick_data` writes
starting from an empty store, every materialized partition has adjacent
timestamps ascending and no two records sharing a timestamp. -/
theorem store_sequence_sorted_dedup (dfs : List (List TickRec)) :
    storeInv (dfs.foldl (fun st df => store_tick_data df st) []) := by
  have hgen : ∀ (ds : List (List TickRec)) (s : Store), storeInv s →
      storeInv (ds.foldl (fun st df => store_tick_data df st) s) := by
    intro ds
    induction ds with
    | nil => intro s h; exact h
    | cons d rest ih =>
      intro s h
      exact ih _ (storeInv_store_tick_data d s h)
  exact hgen dfs [] (by intro p hp; cases hp)

/-- C1 counterexample: the gap-repair worker (parallel_patch.py lines
99-102) puts the fetched slice verbatim — no dedup, no sort — so a
fetch delivering records out of timestamp order materializes a
partition violating the claimed invariant. -/
theorem worker_write_unsorted :
    ¬storeInv (workerStoreDay [recLate, recEarly] []) := by
  intro hinv
  have hW : workerStoreDay [recLate, recEarly] [] =
      [((1970, 1, 1), [recLate, recEarly])] := by rfl
  rw [hW] at hinv
  have hmem := hinv ((1970, 1, 1), [recLate, recEarly]) (List.mem_singleton.mpr rfl)
  have hchain := hmem.1
  rw [List.chain'_cons] at hchain
  have hle : recLate.timestamp ≤ recEarly.timestamp := hchain.1
  simp [recLate, recEarly] at hle

/-! ### C8 and C10: the integrity scanner -/

/-- The day loop with accumulators, flattened: the final state collects
the good-day overwrites, the absent days, and the bad-table days of the
visit list in order. -/
theorem scanFold_eq :
    ∀ (vs : List (ℕ × Option DayGroup)) (acc : ScanAcc),
      vs.foldl scanStep acc =
        (lastWrite acc.1 ((vs.filter isGoodVisit).map Prod.fst),
         acc.2.1 ++ (vs.filter isMissingVisit).map Prod.fst,
         acc.2.2 ++ (vs.filter isBadVisit).map Prod.fst) := by
  intro vs
  induction vs with
  | nil =>
    intro acc
    obtain ⟨a1, a2, a3⟩ := acc
    simp [lastWrite]
  | cons v rest ih =>
    intro acc
    obtain ⟨a1, a2, a3⟩ := acc
    obtain ⟨c, st⟩ := v
    rw [List.foldl_cons, ih]
    cases st with
    | none =>
      simp [scanStep, isGoodVisit, isMissingVisit, isBadVisit, lastWrite,
        List.filter_cons]
    | some g =>
      by_cases hg : dayGood g = true
      · simp [scanStep, isGoodVisit, isMissingVisit, isBadVisit, lastWrite,
          List.filter_cons, hg]
      · simp [scanStep, isGoodVisit, isMissingVisit, isBadVisit, lastWrite,
          List.filter_cons, hg]

/-- A nonempty list has a last element. -/
theorem getLast?_cons_exists : ∀ (d : ℕ) (l : List ℕ), ∃ x, (d :: l).getLast? = some x := by
  intro d l
  induction l generalizing d with
  | nil => exact ⟨d, rfl⟩
  | cons e l2 ih =>
    obtain ⟨x, hx⟩ := ih e
    exact ⟨x, by rw [List.getLast?_cons_cons]; exact hx⟩

/-- Last-write-wins folding computes the last element when one exists. -/
theorem lastWrite_eq_or :
    ∀ (l : List ℕ) (init : Option ℕ), lastWrite init l = l.getLast?.or init := by
  intro l
  induction l with
  | nil => intro init; rfl
  | cons c l2 ih =>
    intro init
    cases l2 with
    | nil => simp [lastWrite]
    | cons d l3 =>
      have h1 : lastWrite init (c :: d :: l3) = lastWrite (some c) (d :: l3) := rfl
      rw [h1, ih (some c), List.getLast?_cons_cons]
      obtain ⟨x, hx⟩ := getLast?_cons_exists d l3
      rw [hx]
      rfl

/-- The last element belongs to the list. -/
theorem mem_of_getLast?_eq : ∀ (l : List ℕ) (c : ℕ), l.getLast? = some c → c ∈ l := by
  intro l
  induction l with
  | nil => intro c h; simp at h
  | cons d l2 ih =>
    intro c h
    cases l2 with
    | nil =>
      simp only [List.getLast?_singleton] at h
      injection h with h
      rw [← h]
      exact List.mem_cons_self _ _
    | cons e l3 =>
      rw [List.getLast?_cons_cons] at h
      exact List.mem_cons_of_mem _ (ih c h)

/-- In a strictly ascending list the last element is the maximum. -/
theorem getLast?_sorted_max :
    ∀ l : List ℕ, List.Pairwise (· < ·) l →
      ∀ c, l.getLast? = some c → c ∈ l ∧ ∀ b ∈ l, b ≤ c := by
  intro l
  induction l with
  | nil => intro _ c h; simp at h
  | cons d l2 ih =>
    intro hp c hc
    cases l2 with
    | nil =>
      simp only [List.getLast?_singleton] at hc
      injection hc with hc
      subst hc
      exact ⟨List.mem_cons_self _ _, by intro b hb; rw [List.mem_singleton.mp hb]⟩
    | cons e l3 =>
      rw [List.getLast?_cons_cons] at hc
      have hp2 := List.pairwise_cons.mp hp
      obtain ⟨hmem, hall⟩ := ih hp2.2 c hc
      refine ⟨List.mem_cons_of_mem _ hmem, ?_⟩
      intro b hb
      rcases List.mem_cons.mp hb with h1 | h1
      · rw [h1]
        exact (hp2.1 c hmem).le
      · exact hall b h1

/-- The non-Saturday days of a month, in strictly ascending order. -/
theorem valid_dates_pairwise (y m : ℕ) :
    List.Pairwise (· < ·) (valid_dates y m) := by
  unfold valid_dates
  apply List.Pairwise.sublist (List.filter_sublist _)
  rw [List.pairwise_map]
  exact (List.pairwise_lt_range _).imp (fun h => Nat.succ_lt_succ h)

/-- A valid date's day number lies in the month. -/
theorem mem_valid_dates (y m d : ℕ) (h : d ∈ valid_dates y m) :
    1 ≤ d ∧ d ≤ daysInMonth y m := by
  unfold valid_dates at h
  have h1 := (List.mem_filter.mp h).1
  obtain ⟨a, ha, rfl⟩ := List.mem_map.mp h1
  have h2 := List.mem_range.mp ha
  omega

/-- No month has more than 31 days. -/
theorem daysInMonth_le (y m : ℕ) : daysInMonth y m ≤ 31 := by
  unfold daysInMonth
  split_ifs <;> omega

/-- Within one month group the visited dates strictly ascend. -/
theorem visitsMonth_pairwise (sd ed : Option ℕ) (y m : ℕ)
    (mg : List (ℕ × DayGroup)) :
    List.Pairwise (fun a b => a.1 < b.1) (visitsMonth sd ed y m mg) := by
  unfold visitsMonth
  rw [List.pairwise_map]
  apply List.Pairwise.sublist (List.filter_sublist _)
  exact (valid_dates_pairwise y m).imp (fun h => by unfold dateCode; omega)

/-- Every date visited in a month group lies in that month's code range. -/
theorem visitsMonth_bounds (sd ed : Option ℕ) (y m : ℕ)
    (mg : List (ℕ × DayGroup)) :
    ∀ v ∈ visitsMonth sd ed y m mg,
      y * 10000 + m * 100 + 1 ≤ v.1 ∧ v.1 ≤ y * 10000 + m * 100 + 31 := by
  intro v hv
  unfold visitsMonth at hv
  obtain ⟨d, hd, rfl⟩ := List.mem_map.mp hv
  have hd1 := (List.mem_filter.mp hd).1
  have hb := mem_valid_dates y m d hd1
  have h31 := daysInMonth_le y m
  unfold dateCode
  omega

/-- Sorting by key, with distinct keys, gives strictly ascending keys. -/
theorem sortByKey_pairwise_lt {β : Type} (l : List (ℕ × β))
    (h : (l.map Prod.fst).Nodup) :
    List.Pairwise (fun a b => a.1 < b.1) (sortByKey l) := by
  haveI : IsTotal (ℕ × β) (fun a b => a.1 ≤ b.1) := ⟨fun a b => Nat.le_total _ _⟩
  haveI : IsTrans (ℕ × β) (fun a b => a.1 ≤ b.1) := ⟨fun _ _ _ h1 h2 => Nat.le_trans h1 h2⟩
  have hs : List.Sorted (fun a b : ℕ × β => a.1 ≤ b.1) (sortByKey l) :=
    List.sorted_insertionSort _ l
  have hn : ((sortByKey l).map Prod.fst).Nodup := by
    have hperm := (List.perm_insertionSort (fun a b : ℕ × β => a.1 ≤ b.1) l).symm
    exact (hperm.map Prod.fst).nodup h
  have hn2 : List.Pairwise (fun a b : ℕ × β => a.1 ≠ b.1) (sortByKey l) := by
    rw [← List.pairwise_map]
    exact hn
  exact (hs.and hn2).imp (fun h => lt_of_le_of_ne h.1 h.2)

/-- Membership is preserved by the key sort. -/
theorem mem_sortByKey {β : Type} (l : List (ℕ × β)) (x : ℕ × β) :
    x ∈ sortByKey l ↔ x ∈ l :=
  List.mem_insertionSort _

/-- Within one year group the visited dates strictly ascend. -/
theorem visitsYear_pairwise (sd ed : Option ℕ) (y : ℕ)
    (yg : List (ℕ × List (ℕ × DayGroup)))
    (hnd : (yg.map Prod.fst).Nodup) :
    List.Pairwise (fun a b => a.1 < b.1) (visitsYear sd ed y yg) := by
  unfold visitsYear
  rw [List.flatMap_def, List.pairwise_flatten]
  constructor
  · intro l hl
    obtain ⟨p, _, rfl⟩ := List.mem_map.mp hl
    exact visitsMonth_pairwise sd ed y p.1 p.2
  · rw [List.pairwise_map]
    refine (sortByKey_pairwise_lt yg hnd).imp ?_
    intro p q hpq x hx z hz
    have hx2 := visitsMonth_bounds sd ed y p.1 p.2 x hx
    have hz2 := visitsMonth_bounds sd ed y q.1 q.2 z hz
    omega

/-- Every date visited in a year group lies in that year's code range,
provided the present month keys are calendar months. -/
theorem visitsYear_bounds (sd ed : Option ℕ) (y : ℕ)
    (yg : List (ℕ × List (ℕ × DayGroup)))
    (hm12 : ∀ q ∈ yg, 1 ≤ q.1 ∧ q.1 ≤ 12) :
    ∀ v ∈ visitsYear sd ed y yg,
      y * 10000 + 101 ≤ v.1 ∧ v.1 ≤ y * 10000 + 1231 := by
  intro v hv
  unfold visitsYear at hv
  obtain ⟨p, hp, hv2⟩ := List.mem_flatMap.mp hv
  have hpmem : p ∈ yg := (mem_sortByKey yg p).mp hp
  have hm := hm12 p hpmem
  have hb := visitsMonth_bounds sd ed y p.1 p.2 v hv2
  omega

/-- The full visit list of a well-formed instrument strictly ascends:
the scan examines days in chronological order. -/
theorem visitsInst_pairwise (sd ed : Option ℕ)
    (inst : List (ℕ × List (ℕ × List (ℕ × DayGroup)))) (hwf : WFInst inst) :
    List.Pairwise (fun a b => a.1 < b.1) (visitsInst sd ed inst) := by
  obtain ⟨hnd, hall⟩ := hwf
  unfold visitsInst
  rw [List.flatMap_def, List.pairwise_flatten]
  constructor
  · intro l hl
    obtain ⟨p, hp, rfl⟩ := List.mem_map.mp hl
    have hpmem : p ∈ inst := (mem_sortByKey inst p).mp hp
    exact visitsYear_pairwise sd ed p.1 p.2 (hall p hpmem).2.2.1
  · rw [List.pairwise_map]
    refine List.Pairwise.imp_of_mem ?_ (sortByKey_pairwise_lt inst hnd)
    intro p q hp hq hpq x hx z hz
    have hpmem : p ∈ inst := (mem_sortByKey inst p).mp hp
    have hqmem : q ∈ inst := (mem_sortByKey inst q).mp hq
    have hx2 := visitsYear_bounds sd ed p.1 p.2 (fun r hr => ⟨((hall p hpmem).2.2.2 r hr).1, ((hall p hpmem).2.2.2 r hr).2⟩) x hx
    have hz2 := visitsYear_bounds sd ed q.1 q.2 (fun r hr => ⟨((hall q hqmem).2.2.2 r hr).1, ((hall q hqmem).2.2.2 r hr).2⟩) z hz
    omega

/-- C8: for a well-formed instrument tree, `missing_groups` holds
exactly the expected in-range days absent from their present month
group, `missing_tables` exactly the days whose group is present but
whose table is missing or unreadable, and `last_good_date` is the
latest (maximal) in-range, non-Saturday day with a present readable
partition — a gap followed by a later good day still yields the later
day — and is `none` exactly when no such day exists. -/
theorem scan_instrument_correct (sd ed : Option ℕ)
    (inst : List (ℕ × List (ℕ × List (ℕ × DayGroup)))) (hwf : WFInst inst) :
    (scanInstrument sd ed inst).2.1 = missingCodes sd ed inst ∧
    (scanInstrument sd ed inst).2.2 = badCodes sd ed inst ∧
    ((scanInstrument sd ed inst).1 = none ↔ goodCodes sd ed inst = []) ∧
    ∀ c, (scanInstrument sd ed inst).1 = some c →
      c ∈ goodCodes sd ed inst ∧ ∀ b ∈ goodCodes sd ed inst, b ≤ c := by
  have hfold := scanFold_eq (visitsInst sd ed inst) (none, [], [])
  have hlast : (scanInstrument sd ed inst).1 = (goodCodes sd ed inst).getLast? := by
    unfold scanInstrument goodCodes
    rw [hfold]
    dsimp only
    rw [lastWrite_eq_or, Option.or_none]
  have hpw : List.Pairwise (· < ·) (goodCodes sd ed inst) := by
    have h1 := visitsInst_pairwise sd ed inst hwf
    have h2 : List.Pairwise (fun a b => a.1 < b.1)
        ((visitsInst sd ed inst).filter isGoodVisit) :=
      List.Pairwise.sublist (List.filter_sublist _) h1
    unfold goodCodes
    rw [List.pairwise_map]
    exact h2
  refine ⟨?_, ?_, ?_, ?_⟩
  · unfold scanInstrument missingCodes
    rw [hfold]
    dsimp only
    rw [List.nil_append]
  · unfold scanInstrument badCodes
    rw [hfold]
    dsimp only
    rw [List.nil_append]
  · rw [hlast]
    constructor
    · intro h
      cases hl : goodCodes sd ed inst with
      | nil => rfl
      | cons c tl =>
        obtain ⟨x, hx⟩ := getLast?_cons_exists c tl
        rw [hl, hx] at h
        cases h
    · intro h
      rw [h]
      rfl
  · intro c hc
    rw [hlast] at hc
    exact getLast?_sorted_max _ hpw c hc

/-- C8 witness: the example store with March 2015 partially populated. -/
theorem scan_instrument_correct_check :
    WFInst instEx ∧
    ((scanInstrument none none instEx).2.1 = missingCodes none none instEx ∧
     (scanInstrument none none instEx).2.2 = badCodes none none instEx ∧
     ((scanInstrument none none instEx).1 = none ↔ goodCodes none none instEx = []) ∧
     ∀ c, (scanInstrument none none instEx).1 = some c →
       c ∈ goodCodes none none instEx ∧ ∀ b ∈ goodCodes none none instEx, b ≤ c) :=
  ⟨by decide, scan_instrument_correct none none instEx (by decide)⟩

/-- Every visited day arises from a present year group, a present month
group within it, and a valid day of that month. -/
theorem visitsInst_decomp (sd ed : Option ℕ)
    (inst : List (ℕ × List (ℕ × List (ℕ × DayGroup)))) :
    ∀ v ∈ visitsInst sd ed inst, ∃ y yg m mg d,
      (y, yg) ∈ inst ∧ (m, mg) ∈ yg ∧ d ∈ valid_dates y m ∧
      v.1 = dateCode y m d := by
  intro v hv
  unfold visitsInst at hv
  obtain ⟨p, hp, hv2⟩ := List.mem_flatMap.mp hv
  unfold visitsYear at hv2
  obtain ⟨q, hq, hv3⟩ := List.mem_flatMap.mp hv2
  unfold visitsMonth at hv3
  obtain ⟨d, hd, hveq⟩ := List.mem_map.mp hv3
  have hd1 := (List.mem_filter.mp hd).1
  refine ⟨p.1, p.2, q.1, q.2, d, ?_, ?_, hd1, ?_⟩
  · exact (mem_sortByKey inst p).mp hp
  · exact (mem_sortByKey p.2 q).mp hq
  · rw [← hveq]

/-- C10: a business day whose entire month group (or year group) is
absent for an instrument never appears in `missing_groups` or
`missing_tables` and never becomes `last_good_date` — a wholly missing
month produces no gap report. -/
theorem scan_ignores_absent_months (sd ed : Option ℕ)
    (inst : List (ℕ × List (ℕ × List (ℕ × DayGroup)))) (hwf : WFInst inst)
    (y m d : ℕ) (hm1 : 1 ≤ m) (hm2 : m ≤ 12) (hd1 : 1 ≤ d) (hd2 : d ≤ 31)
    (habs : ∀ yg, (y, yg) ∈ inst → ∀ mg, (m, mg) ∉ yg) :
    dateCode y m d ∉ (scanInstrument sd ed inst).2.1 ∧
    dateCode y m d ∉ (scanInstrument sd ed inst).2.2 ∧
    (scanInstrument sd ed inst).1 ≠ some (dateCode y m d) := by
  have hvisit : ∀ v ∈ visitsInst sd ed inst, v.1 ≠ dateCode y m d := by
    intro v hv hc
    obtain ⟨y', yg, m', mg, d', hyg, hmg, hd', hcode⟩ :=
      visitsInst_decomp sd ed inst v hv
    have hm' := (hwf.2 (y', yg) hyg).2.2.2 (m', mg) hmg
    have hdb := mem_valid_dates y' m' d' hd'
    have hd31 := daysInMonth_le y' m'
    rw [hc] at hcode
    unfold dateCode at hcode
    obtain ⟨hy, hm, hdd⟩ : y = y' ∧ m = m' ∧ d = d' := ⟨by omega, by omega, by omega⟩
    subst hy
    subst hm
    exact habs yg hyg mg hmg
  have hfold := scanFold_eq (visitsInst sd ed inst) (none, [], [])
  have h21 : (scanInstrument sd ed inst).2.1 =
      ((visitsInst sd ed inst).filter isMissingVisit).map Prod.fst := by
    unfold scanInstrument
    rw [hfold]
    dsimp only
    rw [List.nil_append]
  have h22 : (scanInstrument sd ed inst).2.2 =
      ((visitsInst sd ed inst).filter isBadVisit).map Prod.fst := by
    unfold scanInstrument
    rw [hfold]
    dsimp only
    rw [List.nil_append]
  have h1 : (scanInstrument sd ed inst).1 =
      (((visitsInst sd ed inst).filter isGoodVisit).map Prod.fst).getLast? := by
    unfold scanInstrument
    rw [hfold]
    dsimp only
    rw [lastWrite_eq_or, Option.or_none]
  refine ⟨?_, ?_, ?_⟩
  · intro hmem
    rw [h21] at hmem
    obtain ⟨v, hv, hveq⟩ := List.mem_map.mp hmem
    exact hvisit v (List.mem_filter.mp hv).1 hveq
  · intro hmem
    rw [h22] at hmem
    obtain ⟨v, hv, hveq⟩ := List.mem_map.mp hmem
    exact hvisit v (List.mem_filter.mp hv).1 hveq
  · intro hsome
    rw [h1] at hsome
    have hmem := mem_of_getLast?_eq _ _ hsome
    obtain ⟨v, hv, hveq⟩ := List.mem_map.mp hmem
    exact hvisit v (List.mem_filter.mp hv).1 hveq

/-- C10 witness: April 2015 has no month group in the example store, so
2015-04-10 is reported nowhere. -/
theorem scan_ignores_absent_months_check :
    WFInst instEx ∧
    dateCode 2015 4 10 ∉ (scanInstrument none none instEx).2.1 ∧
    dateCode 2015 4 10 ∉ (scanInstrument none none instEx).2.2 ∧
    (scanInstrument none none instEx).1 ≠ some (dateCode 2015 4 10) :=
  ⟨by decide,
   scan_ignores_absent_months none none instEx (by decide) 2015 4 10
     (by norm_num) (by norm_num) (by norm_num) (by norm_num)
     (by
       intro yg hyg mg hmg
       simp only [instEx, List.mem_singleton, Prod.mk.injEq, true_and] at hyg
       rw [hyg] at hmg
       simp at hmg)⟩

end TickPipeline
